import Mathlib

/-!
Verification of the immutable-ledger sealing service.

This file shallowly embeds the core of the `ledger-service` Rust crate:

* `crypto.rs`   — `HashChain` over a `BTreeMap<u64, String>`, modelled as a
  key-sorted association list (the `BTreeMap` iteration/invariant).
* `sealing.rs`  — `SealingEngine::compute_event_hash`, modelled with an
  executable SHA-256 over byte lists (`Nat` values `< 256`) and lowercase hex
  encoding, fed through an incremental hasher that buffers its input exactly
  as the streaming `sha2` API concatenates `update` calls.
* `ledger.rs`   — the seal pipeline over an etcd store.  The store is a pair
  of a counter key (raw bytes, as etcd values are bytes) and a map from
  sequence number to the stored record.  Reading the counter goes through a
  faithful model of `String::from_utf8(...)?` (error on invalid UTF-8)
  followed by `str::parse::<u64>()` with `unwrap_or(0)`.  Record values are
  modelled structurally: `serde_json` serialization followed by
  deserialization of the same struct type is the library's round-trip
  contract, so the store holds the record itself.
  Wall-clock reads (`Utc::now`, the latency timer) and connectivity of the
  event write are threaded as explicit parameters.

Machine integers are `Nat` with explicit `% 2 ^ 64` / `% 2 ^ 32` where the
Rust code computes in `u64` / `u32`.
-/

set_option maxRecDepth 100000

/-! ## SHA-256 over byte lists -/

/-- Truncate to a 32-bit word, as `u32` arithmetic wraps. -/
def w32 (x : Nat) : Nat := x % 4294967296

/-- 32-bit right rotation (input assumed `< 2 ^ 32`). -/
def rotr32 (n x : Nat) : Nat := ((x >>> n) ||| (x <<< (32 - n))) % 4294967296

def bigSigma0 (x : Nat) : Nat := rotr32 2 x ^^^ rotr32 13 x ^^^ rotr32 22 x

def bigSigma1 (x : Nat) : Nat := rotr32 6 x ^^^ rotr32 11 x ^^^ rotr32 25 x

def smallSigma0 (x : Nat) : Nat := rotr32 7 x ^^^ rotr32 18 x ^^^ (x >>> 3)

def smallSigma1 (x : Nat) : Nat := rotr32 17 x ^^^ rotr32 19 x ^^^ (x >>> 10)

def chFn (e f g : Nat) : Nat := (e &&& f) ^^^ ((e ^^^ 4294967295) &&& g)

def majFn (a b c : Nat) : Nat := (a &&& b) ^^^ (a &&& c) ^^^ (b &&& c)

/-- The 64 SHA-256 round constants of FIPS 180-4, in decimal. -/
def sha256K : List Nat :=
  [1116352408, 1899447441, 3049323471, 3921009573, 961987163, 1508970993,
   2453635748, 2870763221, 3624381080, 310598401, 607225278, 1426881987,
   1925078388, 2162078206, 2614888103, 3248222580, 3835390401, 4022224774,
   264347078, 604807628, 770255983, 1249150122, 1555081692, 1996064986,
   2554220882, 2821834349, 2952996808, 3210313671, 3336571891, 3584528711,
   113926993, 338241895, 666307205, 773529912, 1294757372, 1396182291,
   1695183700, 1986661051, 2177026350, 2456956037, 2730485921, 2820302411,
   3259730800, 3345764771, 3516065817, 3600352804, 4094571909, 275423344,
   430227734, 506948616, 659060556, 883997877, 958139571, 1322822218,
   1537002063, 1747873779, 1955562222, 2024104815, 2227730452, 2361852424,
   2428436474, 2756734187, 3204031479, 3329325298]

/-- The working registers of the compression function. -/
structure Regs where
  a : Nat
  b : Nat
  c : Nat
  d : Nat
  e : Nat
  f : Nat
  g : Nat
  h : Nat

/-- The SHA-256 initial hash value of FIPS 180-4, in decimal. -/
def initRegs : Regs :=
  ⟨1779033703, 3144134277, 1013904242, 2773480762, 1359893119, 2600822924, 528734635, 1541459225⟩

/-- One compression round, consuming a `(K, W)` pair. -/
def roundStep (r : Regs) (kw : Nat × Nat) : Regs :=
  let t1 := w32 (r.h + bigSigma1 r.e + chFn r.e r.f r.g + kw.1 + kw.2)
  let t2 := w32 (bigSigma0 r.a + majFn r.a r.b r.c)
  ⟨w32 (t1 + t2), r.a, r.b, r.c, w32 (r.d + t1), r.e, r.f, r.g⟩

/-- Append the next message-schedule word. -/
def extendOnce (w : List Nat) : List Nat :=
  w ++ [w32 (smallSigma1 (w.getD (w.length - 2) 0) + w.getD (w.length - 7) 0 +
             smallSigma0 (w.getD (w.length - 15) 0) + w.getD (w.length - 16) 0)]

/-- Iterate the message-schedule extension. -/
def extendN : Nat → List Nat → List Nat
  | 0, w => w
  | n + 1, w => extendN n (extendOnce w)

/-- Group bytes into big-endian 32-bit words. -/
def toBeWords : List Nat → List Nat
  | b0 :: b1 :: b2 :: b3 :: r => (b0 * 16777216 + b1 * 65536 + b2 * 256 + b3) :: toBeWords r
  | _ => []

/-- Compress one 64-byte block into the running state. -/
def compressBlock (hv : Regs) (block : List Nat) : Regs :=
  let w := extendN 48 (toBeWords block)
  let r := (sha256K.zip w).foldl roundStep hv
  ⟨w32 (hv.a + r.a), w32 (hv.b + r.b), w32 (hv.c + r.c), w32 (hv.d + r.d),
   w32 (hv.e + r.e), w32 (hv.f + r.f), w32 (hv.g + r.g), w32 (hv.h + r.h)⟩

/-- Big-endian bytes of a 64-bit length field. -/
def beBytes8 (n : Nat) : List Nat :=
  [(n >>> 56) % 256, (n >>> 48) % 256, (n >>> 40) % 256, (n >>> 32) % 256,
   (n >>> 24) % 256, (n >>> 16) % 256, (n >>> 8) % 256, n % 256]

/-- Big-endian bytes of a 32-bit word. -/
def beBytes4 (n : Nat) : List Nat :=
  [(n >>> 24) % 256, (n >>> 16) % 256, (n >>> 8) % 256, n % 256]

/-- SHA-256 padding: `0x80`, zeros to 56 mod 64, then the bit length. -/
def padMsg (m : List Nat) : List Nat :=
  m ++ 0x80 :: (List.replicate ((119 - m.length % 64) % 64) 0 ++ beBytes8 (8 * m.length))

/-- Split a byte list into 64-byte blocks; the fuel (first argument) only
bounds the recursion depth and any value at least `l.length` is exact, since
every step consumes at least one element. -/
def chunksF : Nat → List Nat → List (List Nat)
  | _, [] => []
  | 0, _ :: _ => []
  | fuel + 1, a :: r => ((a :: r).take 64) :: chunksF fuel ((a :: r).drop 64)

/-- Split a byte list into 64-byte blocks. -/
def chunks64 (l : List Nat) : List (List Nat) := chunksF l.length l

/-- SHA-256 of a byte list: the 32 digest bytes. -/
def sha256 (msg : List Nat) : List Nat :=
  let fin := (chunks64 (padMsg msg)).foldl compressBlock initRegs
  beBytes4 fin.a ++ beBytes4 fin.b ++ beBytes4 fin.c ++ beBytes4 fin.d ++
  beBytes4 fin.e ++ beBytes4 fin.f ++ beBytes4 fin.g ++ beBytes4 fin.h

/-! ## Hex encoding and UTF-8 byte views -/

/-- The lowercase hex digit for a nibble, as `hex::encode` emits it. -/
def hexChar (n : Nat) : Char := "0123456789abcdef".data.getD n '0'

/-- The two hex digits of one byte. -/
def hexByte (b : Nat) : List Char := [hexChar (b / 16), hexChar (b % 16)]

/-- Lowercase hex encoding of a byte list (`hex::encode`). -/
def hexEncode (bs : List Nat) : String := String.mk (bs.flatMap hexByte)

/-- UTF-8 encoding of one scalar value. -/
def charUtf8 (c : Char) : List Nat :=
  let n := c.toNat
  if n < 128 then [n]
  else if n < 2048 then [192 + n / 64, 128 + n % 64]
  else if n < 65536 then [224 + n / 4096, 128 + n / 64 % 64, 128 + n % 64]
  else [240 + n / 262144, 128 + n / 4096 % 64, 128 + n / 64 % 64, 128 + n % 64]

/-- The UTF-8 bytes of a string (`str::as_bytes`). -/
def strBytes (s : String) : List Nat := s.data.flatMap charUtf8

/-- `u64::to_le_bytes`: the 8 little-endian bytes. -/
def toLeBytes8 (n : Nat) : List Nat :=
  [n % 256, (n >>> 8) % 256, (n >>> 16) % 256, (n >>> 24) % 256,
   (n >>> 32) % 256, (n >>> 40) % 256, (n >>> 48) % 256, (n >>> 56) % 256]

/-! ## The sealing engine (`sealing.rs`) -/

/-- The streaming SHA-256 hasher: `update` absorbs bytes, which for SHA-256 is
equivalent to buffering them and digesting the concatenation at `finalize`. -/
structure Sha256Hasher where
  buf : List Nat

def Sha256Hasher.new : Sha256Hasher := ⟨[]⟩

def Sha256Hasher.update (h : Sha256Hasher) (data : List Nat) : Sha256Hasher :=
  ⟨h.buf ++ data⟩

def Sha256Hasher.finalize (h : Sha256Hasher) : List Nat := sha256 h.buf

/-- `SealingEngine::compute_event_hash`: absorb the little-endian sequence
number, the event id bytes, the payload, and the previous-hash bytes, then
hex-encode the digest. -/
def compute_event_hash (sequence_number : Nat) (event_id : String)
    (payload : List Nat) (previous_hash : String) : String :=
  let hasher := Sha256Hasher.new
  let hasher := hasher.update (toLeBytes8 sequence_number)
  let hasher := hasher.update (strBytes event_id)
  let hasher := hasher.update payload
  let hasher := hasher.update (strBytes previous_hash)
  hexEncode hasher.finalize

/-- `SealedEventData` (`sealing.rs`): the stored and returned record. -/
structure SealedEventData where
  sequence_number : Nat
  event_id : String
  payload : List Nat
  event_hash : String
  previous_hash : String
  sealed_timestamp : Int
  commit_latency_ms : Int
deriving DecidableEq

/-! ## Byte-level UTF-8 validity and `u64` parsing

`assign_sequence_number` and `get_current_sequence` read the counter value as
raw bytes and run `String::from_utf8(..)?` (an error on invalid UTF-8, via
`?`) followed by `.parse::<u64>().unwrap_or(0)`.  `u64`'s `FromStr` accepts an
optional leading `+` followed by one or more ASCII decimal digits and fails on
overflow past `u64::MAX`, so on the bytes of a valid-UTF-8 string it is
exactly the byte-level parser below. -/

/-- Is `b` in the closed byte range `[lo, hi]`? -/
def contB (lo hi b : Nat) : Bool := lo ≤ b && b ≤ hi

/-- Classify a UTF-8 lead byte: `none` for an invalid lead byte (including
the overlong leads `0xC0`/`0xC1` and everything at or above `0xF5`),
otherwise the number of continuation bytes together with the allowed range
of the first continuation byte (later continuation bytes always lie in
`[0x80, 0xBF]`).  The `0xE0`/`0xED`/`0xF0`/`0xF4` rows exclude overlong
forms, UTF-16 surrogates, and values above `0x10FFFF`. -/
def utf8Len (b : Nat) : Option (Nat × Nat × Nat) :=
  if b ≤ 0x7F then some (0, 0, 0)
  else if contB 0xC2 0xDF b then some (1, 0x80, 0xBF)
  else if b = 0xE0 then some (2, 0xA0, 0xBF)
  else if contB 0xE1 0xEC b then some (2, 0x80, 0xBF)
  else if b = 0xED then some (2, 0x80, 0x9F)
  else if contB 0xEE 0xEF b then some (2, 0x80, 0xBF)
  else if b = 0xF0 then some (3, 0x90, 0xBF)
  else if contB 0xF1 0xF3 b then some (3, 0x80, 0xBF)
  else if b = 0xF4 then some (3, 0x80, 0x8F)
  else none

/-- Consume `k` continuation bytes, the first bounded by `[lo, hi]` and the
rest by `[0x80, 0xBF]`; return the remainder of the list on success. -/
def takeCont : Nat → Nat → Nat → List Nat → Option (List Nat)
  | 0, _, _, rest => some rest
  | _ + 1, _, _, [] => none
  | k + 1, lo, hi, b :: r => if contB lo hi b then takeCont k 0x80 0xBF r else none

/-- Standard UTF-8 validity of a byte list, fuel-indexed; the fuel only
bounds the recursion depth and any value at least the list length is exact,
since every step consumes at least the lead byte. -/
def isValidUtf8F : Nat → List Nat → Bool
  | 0, l => l.isEmpty
  | _ + 1, [] => true
  | fuel + 1, b :: rest =>
    match utf8Len b with
    | none => false
    | some (k, lo, hi) =>
      match takeCont k lo hi rest with
      | some r => isValidUtf8F fuel r
      | none => false

/-- Standard UTF-8 validity of a byte list (what `String::from_utf8`
checks): overlong forms, surrogates and values above `0x10FFFF` are
rejected. -/
def isValidUtf8 (l : List Nat) : Bool := isValidUtf8F l.length l

/-- Digit loop of `u64::from_str`: consume ASCII digits with a checked
accumulator; any non-digit byte or overflow past `u64::MAX` fails. -/
def parseU64Core : List Nat → Nat → Option Nat
  | [], acc => some acc
  | b :: r, acc =>
    if contB 48 57 b then
      let acc2 := acc * 10 + (b - 48)
      if acc2 < 2 ^ 64 then parseU64Core r acc2 else none
    else none

/-- `str::parse::<u64>()` on the string's bytes: optional leading `+`, then a
nonempty run of ASCII digits, value at most `u64::MAX`. -/
def parseU64 : List Nat → Option Nat
  | [] => none
  | b :: r =>
    if b = 43 then
      match r with
      | [] => none
      | _ :: _ => parseU64Core r 0
    else parseU64Core (b :: r) 0

/-- Digit-emission loop of `u64::to_string`, most significant digit first;
the fuel only bounds the recursion depth and any value at least `n` is
exact. -/
def decBytesF : Nat → Nat → List Nat → List Nat
  | 0, _, acc => acc
  | fuel + 1, n, acc => if n = 0 then acc else decBytesF fuel (n / 10) ((n % 10 + 48) :: acc)

/-- The ASCII bytes of `u64::to_string`. -/
def decBytes (n : Nat) : List Nat := if n = 0 then [48] else decBytesF n n []

/-! ## The hash chain (`crypto.rs`)

`HashChain` keeps a `BTreeMap<u64, String>`; the model is the key-sorted
association list the map iterates as.  `iter().next_back()` is the last entry
of that list, `insert` is sorted insertion replacing an equal key, and
`keys()` already comes out ascending (`verify_integrity` still re-sorts, as
the source calls `.sort()` on the collected keys). -/

/-- `BTreeMap::insert` on the sorted association list. -/
def insertSorted (n : Nat) (v : String) : List (Nat × String) → List (Nat × String)
  | [] => [(n, v)]
  | (k, w) :: r =>
    if n < k then (n, v) :: (k, w) :: r
    else if n = k then (n, v) :: r
    else (k, w) :: insertSorted n v r

/-- `BTreeMap::get` on the association list. -/
def lookupKey (n : Nat) : List (Nat × String) → Option String
  | [] => none
  | (k, v) :: r => if k = n then some v else lookupKey n r

/-- `Vec::sort` insertion step for the collected keys. -/
def insertOrd (a : Nat) : List Nat → List Nat
  | [] => [a]
  | b :: r => if a ≤ b then a :: b :: r else b :: insertOrd a r

/-- `Vec::sort` on the collected keys (stable ascending sort). -/
def sortAsc : List Nat → List Nat
  | [] => []
  | a :: r => insertOrd a (sortAsc r)

/-- The gap check loop of `verify_integrity`: every adjacent pair of the
sorted key vector must step by exactly one. -/
def consecutive : List Nat → Bool
  | a :: b :: r => (b = a + 1) && consecutive (b :: r)
  | _ => true

/-- `HashChain` (`crypto.rs`): the in-memory chain state. -/
structure HashChain where
  chain : List (Nat × String)
  genesis_hash : String
deriving DecidableEq

/-- `HashChain::new`: empty map, genesis hash `"0".repeat(64)`. -/
def HashChain.new : HashChain := ⟨[], String.mk (List.replicate 64 '0')⟩

/-- `HashChain::get_latest_hash`: the value at the maximal key
(`iter().next_back()`), or the genesis hash if the map is empty. -/
def HashChain.get_latest_hash (c : HashChain) : String :=
  match c.chain.getLast? with
  | some kv => kv.2
  | none => c.genesis_hash

/-- `HashChain::add_hash`. -/
def HashChain.add_hash (c : HashChain) (sequence_number : Nat) (hash : String) : HashChain :=
  ⟨insertSorted sequence_number hash c.chain, c.genesis_hash⟩

/-- `HashChain::get_hash`. -/
def HashChain.get_hash (c : HashChain) (sequence_number : Nat) : Option String :=
  lookupKey sequence_number c.chain

/-- `HashChain::verify_integrity`: empty, or the sorted keys are consecutive. -/
def HashChain.verify_integrity (c : HashChain) : Bool :=
  if c.chain.isEmpty then true
  else consecutive (sortAsc (c.chain.map Prod.fst))

/-- `HashChain::length`. -/
def HashChain.length (c : HashChain) : Nat := c.chain.length

/-! ## The ledger (`ledger.rs`) -/

/-- The failure causes surfaced through `anyhow::Result` that this model
distinguishes. -/
inductive LedgerErr
  | utf8Error
  | connectivityError
deriving DecidableEq

/-- The etcd keyspace as this service uses it: the bytes under
`ledger/sequence_counter` and, per sequence number, the record stored under
`ledger/events/{n}` (a record is stored rather than its JSON text:
`serde_json::to_string` followed by `serde_json::from_slice` at the same type
round-trips by the library's contract, which claim C2 also assumes). -/
structure EtcdState where
  counter : Option (List Nat)
  events : Nat → Option SealedEventData

/-- Counter read and increment shared by `assign_sequence_number` and the
interleaved model: get the counter key, `String::from_utf8(..)?`,
`parse().unwrap_or(0)`, add one (`u64` arithmetic), absent key means the next
sequence number is `1`. -/
def readNextSequence (counter : Option (List Nat)) : Except LedgerErr Nat :=
  match counter with
  | some bytes =>
    if isValidUtf8 bytes then .ok (((parseU64 bytes).getD 0 + 1) % 2 ^ 64)
    else .error .utf8Error
  | none => .ok 1

/-- `Ledger::assign_sequence_number`: read the counter, compute the next
value, write it back as its decimal string, return it.  The state component
is the store after the operation (unchanged when the read fails, since the
`?` returns before the put). -/
def assign_sequence_number (st : EtcdState) : Except LedgerErr Nat × EtcdState :=
  match readNextSequence st.counter with
  | .ok next => (.ok next, { st with counter := some (decBytes next) })
  | .error e => (.error e, st)

/-- `Ledger::write_to_ledger`: put the record under its sequence-number key.
`connOk` models whether the etcd round trip succeeds. -/
def write_to_ledger (st : EtcdState) (r : SealedEventData) (connOk : Bool) :
    Except LedgerErr EtcdState :=
  if connOk then
    .ok { st with events := fun n => if n = r.sequence_number then some r else st.events n }
  else .error .connectivityError

/-- The full in-process state `Ledger` guards: the etcd keyspace and the
in-memory hash chain. -/
structure LedgerState where
  store : EtcdState
  chain : HashChain

/-- The latency-contract check of `seal_event`: the warning branch fires
exactly when the measured latency exceeds 50 ms (it only logs). -/
def latencyWarning (latency_ms : Int) : Bool := latency_ms > 50

/-- `Ledger::seal_event`.  `now` is `Utc::now().timestamp_millis()` at the
record's construction, `latency_ms` the elapsed milliseconds the timer
measures at the end, and `connOk` whether the `write_to_ledger` etcd write
succeeds; all three are inputs the environment decides.  The returned state
is the state after the operation, including the mutations preceding a
failure. -/
def seal_event (ls : LedgerState) (event_id : String) (payload : List Nat)
    ( _veps_signature : String) ( _veps_timestamp : Int)
    (now latency_ms : Int) (connOk : Bool) :
    Except LedgerErr SealedEventData × LedgerState :=
  match assign_sequence_number ls.store with
  | (.error e, st1) => (.error e, { ls with store := st1 })
  | (.ok sequence_number, st1) =>
    let previous_hash := ls.chain.get_latest_hash
    let event_hash := compute_event_hash sequence_number event_id payload previous_hash
    let sealed : SealedEventData :=
      { sequence_number := sequence_number
        event_id := event_id
        payload := payload
        event_hash := event_hash
        previous_hash := previous_hash
        sealed_timestamp := now
        commit_latency_ms := 0 }
    match write_to_ledger st1 sealed connOk with
    | .error e => (.error e, { store := st1, chain := ls.chain })
    | .ok st2 =>
      let chain2 := ls.chain.add_hash sequence_number event_hash
      (.ok { sealed with commit_latency_ms := latency_ms }, { store := st2, chain := chain2 })

/-- `Ledger::get_event`: point read of the per-event key; an absent key is
`Ok(None)`. -/
def get_event (st : EtcdState) (sequence_number : Nat) :
    Except LedgerErr (Option SealedEventData) :=
  .ok (st.events sequence_number)

/-- `Ledger::get_current_sequence`: read-only counter view, `0` when the key
is absent, same UTF-8/parse path as `assign_sequence_number`. -/
def get_current_sequence (st : EtcdState) : Except LedgerErr Nat :=
  match st.counter with
  | some bytes =>
    if isValidUtf8 bytes then .ok ((parseU64 bytes).getD 0)
    else .error .utf8Error
  | none => .ok 0

/-! ## Interleaved allocations (claim C7)

`assign_sequence_number` holds the `etcd_client` mutex from before the `get`
until after the `put` (the `MutexGuard` lives to the end of the function), so
the two etcd round trips of one allocation are a critical section.  The model
below runs `n` allocation tasks in an arbitrary interleaving of atomic steps:
acquiring the mutex, the counter `get` (with the next-value computation, which
touches no shared state), and the counter `put` (after which the guard drops
and the task completes).  A schedule is a list of task indices; a step by a
task that is blocked on the mutex, finished, or out of range does nothing. -/

/-- The progress of one allocation task. -/
inductive TaskPC
  | ready
  | locked
  | got (next : Nat)
  | finished (res : Nat)
  | failed
deriving DecidableEq

/-- Does this task hold the client mutex? -/
def TaskPC.holdsLock : TaskPC → Bool
  | .locked => true
  | .got _ => true
  | _ => false

/-- Has this task completed successfully? -/
def TaskPC.isDone : TaskPC → Bool
  | .finished _ => true
  | _ => false

/-- The allocation result of a completed task. -/
def TaskPC.result : TaskPC → Option Nat
  | .finished v => some v
  | _ => none

/-- The shared counter plus the per-task progress. -/
structure ConcState where
  counter : Option (List Nat)
  tasks : List TaskPC

/-- Is the client mutex free? -/
def lockFree (st : ConcState) : Bool := st.tasks.all (fun pc => !pc.holdsLock)

/-- One atomic step of task `i` (a no-op when the task is blocked on the
mutex, already finished, failed, or out of range). -/
def stepTask (st : ConcState) (i : Nat) : ConcState :=
  match st.tasks.get? i with
  | none => st
  | some pc =>
    match pc with
    | .ready => if lockFree st then { st with tasks := st.tasks.set i .locked } else st
    | .locked =>
      match readNextSequence st.counter with
      | .ok v => { st with tasks := st.tasks.set i (.got v) }
      | .error _ => { st with tasks := st.tasks.set i .failed }
    | .got v =>
      { counter := some (decBytes v), tasks := st.tasks.set i (.finished v) }
    | .finished _ => st
    | .failed => st

/-- Run a schedule (a list of task indices) from a state. -/
def runSched (st : ConcState) (sched : List Nat) : ConcState := sched.foldl stepTask st

/-- `n` allocation tasks against a fresh counter. -/
def freshConc (n : Nat) : ConcState := ⟨none, List.replicate n .ready⟩

/-- The sequence numbers the completed tasks obtained, in task order. -/
def resultsOf (st : ConcState) : List Nat := st.tasks.filterMap TaskPC.result

/-- Did every task complete successfully? -/
def allDone (st : ConcState) : Bool := st.tasks.all TaskPC.isDone

deriving instance DecidableEq for Except

/-- The digest input as §4.2 of the spec words it: the 8-byte little-endian
sequence number, the raw bytes of the event id, the raw payload bytes, and
the raw bytes of the previous hash, concatenated in this order with no
delimiters. -/
def specDigestInput (sequence_number : Nat) (event_id : String)
    (payload : List Nat) (previous_hash : String) : List Nat :=
  toLeBytes8 sequence_number ++ strBytes event_id ++ payload ++ strBytes previous_hash

/-- A lowercase hexadecimal digit. -/
def isLowerHexDigit (c : Char) : Prop := c ∈ "0123456789abcdef".data

/-- Strictly ascending key list: the `BTreeMap` ordering invariant. -/
def strictAscB : List Nat → Bool
  | a :: b :: r => (a < b) && strictAscB (b :: r)
  | _ => true

/-- An empty etcd keyspace: no counter, no events. -/
def emptyStore : EtcdState := ⟨none, fun _ => none⟩

/-- A freshly initialized ledger: empty store, `HashChain::new`. -/
def freshLedger : LedgerState := ⟨emptyStore, HashChain.new⟩

/-- A ledger whose in-memory chain holds an entry at key 10 while the counter
is fresh — the chain state exercising the boundary of claim C4. -/
def staleChainLedger : LedgerState :=
  ⟨emptyStore, ⟨[(10, "x")], String.mk (List.replicate 64 '0')⟩⟩

/-- The allocation results of the completed tasks of a task list. -/
def doneResults (ts : List TaskPC) : List Nat := ts.filterMap TaskPC.result

/-- The inductive invariant of the interleaved-allocation system with `n`
tasks: the task vector keeps its length; at most one task holds the client
mutex; no task has failed (the counter only ever holds decimal strings, which
always parse); the counter holds exactly the decimal string of the number of
completed allocations (absent while none have completed); the completed
results are a permutation of `1..d`; and a task that has performed its read
while holding the mutex computed exactly `d + 1`. -/
def AllocInv (n : Nat) (st : ConcState) : Prop :=
  st.tasks.length = n ∧
  st.tasks.countP TaskPC.holdsLock ≤ 1 ∧
  (∀ pc ∈ st.tasks, pc ≠ TaskPC.failed) ∧
  st.counter = (if (doneResults st.tasks).length = 0 then none
                else some (decBytes (doneResults st.tasks).length)) ∧
  (doneResults st.tasks).Perm (List.range' 1 (doneResults st.tasks).length) ∧
  (∀ v, TaskPC.got v ∈ st.tasks → v = (doneResults st.tasks).length + 1)

/-- The record a successful `seal_event` builds over ledger state `ls`: the
previous hash is the chain's latest hash at entry, the event hash binds the
sequence number, event id, payload and previous hash, and `lat` is the value
of `commit_latency_ms` (`0` in the stored copy, the measured latency in the
returned copy). -/
def sealedRec (ls : LedgerState) (event_id : String) (payload : List Nat)
    (now lat : Int) (seq : Nat) : SealedEventData :=
  { sequence_number := seq
    event_id := event_id
    payload := payload
    event_hash := compute_event_hash seq event_id payload ls.chain.get_latest_hash
    previous_hash := ls.chain.get_latest_hash
    sealed_timestamp := now
    commit_latency_ms := lat }

/-! # Theorems -/

/-- Known-answer check: SHA-256 of the empty message. -/
theorem sha256_empty_vector :
    hexEncode (sha256 []) =
      "e3b0c44298fc1c149afbf4c8996fb92427ae41e4649b934ca495991b7852b855" := by
  decide

/-- Known-answer check: SHA-256 of `"abc"`. -/
theorem sha256_abc_vector :
    hexEncode (sha256 (strBytes "abc")) =
      "ba7816bf8f01cfea414140de5dae2223b00361a396177a9cb410ff61f20015ad" := by
  decide

/-! ## Digest shape lemmas -/

theorem length_flatMap_hexByte (bs : List Nat) :
    (bs.flatMap hexByte).length = 2 * bs.length := by
  induction bs with
  | nil => rfl
  | cons b r ih =>
    simp only [List.flatMap_cons, List.length_append, ih, hexByte, List.length_cons,
      List.length_nil]
    omega

theorem sha256_length (m : List Nat) : (sha256 m).length = 32 := by
  simp [sha256, beBytes4]

theorem mem_beBytes4 {b w : Nat} (h : b ∈ beBytes4 w) : b < 256 := by
  simp only [beBytes4, List.mem_cons, List.not_mem_nil, or_false] at h
  rcases h with rfl | rfl | rfl | rfl <;> exact Nat.mod_lt _ (by norm_num)

theorem mem_sha256_lt {m : List Nat} {b : Nat} (h : b ∈ sha256 m) : b < 256 := by
  simp only [sha256, List.mem_append] at h
  rcases h with ((((((h | h) | h) | h) | h) | h) | h) | h <;> exact mem_beBytes4 h

theorem hexChar_mem {n : Nat} (h : n < 16) : hexChar n ∈ "0123456789abcdef".data := by
  interval_cases n <;> decide

theorem hexEncode_chars {bs : List Nat} (hb : ∀ b ∈ bs, b < 256) :
    ∀ c ∈ (hexEncode bs).data, isLowerHexDigit c := by
  intro c hc
  have hdata : (hexEncode bs).data = bs.flatMap hexByte := rfl
  rw [hdata] at hc
  rcases List.mem_flatMap.mp hc with ⟨b, hbmem, hcb⟩
  have hblt : b < 256 := hb b hbmem
  simp only [hexByte, List.mem_cons, List.not_mem_nil, or_false] at hcb
  rcases hcb with rfl | rfl
  · exact hexChar_mem (by omega)
  · exact hexChar_mem (by omega)

theorem hexEncode_length (bs : List Nat) : (hexEncode bs).length = 2 * bs.length := by
  have : (hexEncode bs).length = (bs.flatMap hexByte).length := rfl
  rw [this, length_flatMap_hexByte]

/-- C3: `compute_event_hash` equals the lowercase hex encoding of the SHA-256
digest of the delimiter-free concatenation of the 8-byte little-endian
sequence number, the event-id bytes, the payload bytes and the previous-hash
bytes; the output is always a 64-character string of lowercase hex digits,
and the function is deterministic. -/
theorem compute_event_hash_follows_spec (sequence_number : Nat) (event_id : String)
    (payload : List Nat) (previous_hash : String) :
    compute_event_hash sequence_number event_id payload previous_hash =
      hexEncode (sha256 (specDigestInput sequence_number event_id payload previous_hash)) ∧
    (compute_event_hash sequence_number event_id payload previous_hash).length = 64 ∧
    (∀ c ∈ (compute_event_hash sequence_number event_id payload previous_hash).data,
      isLowerHexDigit c) ∧
    compute_event_hash sequence_number event_id payload previous_hash =
      compute_event_hash sequence_number event_id payload previous_hash := by
  have heq : compute_event_hash sequence_number event_id payload previous_hash =
      hexEncode (sha256 (specDigestInput sequence_number event_id payload previous_hash)) := by
    simp [compute_event_hash, Sha256Hasher.new, Sha256Hasher.update, Sha256Hasher.finalize,
      specDigestInput, List.append_assoc]
  refine ⟨heq, ?_, ?_, rfl⟩
  · rw [heq, hexEncode_length, sha256_length]
  · rw [heq]
    exact hexEncode_chars (fun b hb => mem_sha256_lt hb)

/-- C9: the pairs `("ab", [0x63])` and `("a", [0x62, 0x63])` are distinct
`(event_id, payload)` pairs, yet for every sequence number and previous hash
`compute_event_hash` gives them the identical digest, because the
delimiter-free concatenation produces the same byte string. -/
theorem hash_input_construction_collision :
    (("ab", ([0x63] : List Nat)) ≠ ("a", ([0x62, 0x63] : List Nat))) ∧
    ∀ (sequence_number : Nat) (previous_hash : String),
      compute_event_hash sequence_number "ab" [0x63] previous_hash =
        compute_event_hash sequence_number "a" [0x62, 0x63] previous_hash := by
  exact ⟨by decide, fun n ph => rfl⟩

/-! ## Decimal print/parse round trip

The counter is written as `u64::to_string` and read back through
`String::from_utf8` + `parse::<u64>`; these lemmas show that round trip is
the identity below `2 ^ 64`, which the chain-linkage, concurrency and
write-failure claims all rely on. -/

theorem decBytesF_zero (fuel : Nat) (acc : List Nat) : decBytesF fuel 0 acc = acc := by
  cases fuel <;> rfl

theorem mem_decBytesF {fuel n : Nat} {acc : List Nat}
    (hacc : ∀ b ∈ acc, 48 ≤ b ∧ b ≤ 57) :
    ∀ b ∈ decBytesF fuel n acc, 48 ≤ b ∧ b ≤ 57 := by
  induction fuel generalizing n acc with
  | zero => exact hacc
  | succ f ih =>
    rw [decBytesF]
    by_cases hn : n = 0
    · rw [if_pos hn]; exact hacc
    · rw [if_neg hn]
      refine ih ?_
      intro b hb
      rcases List.mem_cons.mp hb with rfl | hb
      · omega
      · exact hacc b hb

theorem decBytesF_ne_nil {fuel n : Nat} {acc : List Nat}
    (hn : 0 < n) (hfuel : n ≤ fuel) : decBytesF fuel n acc ≠ [] := by
  induction fuel generalizing n acc with
  | zero => omega
  | succ f ih =>
    rw [decBytesF, if_neg (by omega : ¬n = 0)]
    by_cases hq : n / 10 = 0
    · rw [hq, decBytesF_zero]; exact List.cons_ne_nil _ _
    · exact ih (by omega) (by omega)

theorem parseU64Core_decBytesF (n : Nat) : ∀ (fuel : Nat) (acc : List Nat) (accV : Nat),
    0 < n → n ≤ fuel → accV * 10 ^ (Nat.log 10 n + 1) + n < 2 ^ 64 →
    parseU64Core (decBytesF fuel n acc) accV =
      parseU64Core acc (accV * 10 ^ (Nat.log 10 n + 1) + n) := by
  induction n using Nat.strong_induction_on with
  | _ n IH =>
    intro fuel acc accV hn hfuel hbound
    obtain ⟨f, rfl⟩ : ∃ f, fuel = f + 1 := ⟨fuel - 1, by omega⟩
    rw [decBytesF, if_neg (by omega : ¬n = 0)]
    by_cases h10 : n < 10
    · have hq : n / 10 = 0 := Nat.div_eq_of_lt h10
      rw [hq, decBytesF_zero]
      have hlog : Nat.log 10 n = 0 := Nat.log_eq_zero_iff.mpr (Or.inl h10)
      rw [hlog] at hbound ⊢
      have hd : contB 48 57 (n % 10 + 48) = true := by
        simp only [contB, Bool.and_eq_true, decide_eq_true_eq]; omega
      rw [parseU64Core, if_pos hd]
      have hmod : n % 10 = n := Nat.mod_eq_of_lt h10
      simp only [pow_one, zero_add] at hbound ⊢
      have hacc2 : accV * 10 + (n % 10 + 48 - 48) = accV * 10 + n := by omega
      rw [hacc2, if_pos hbound]
    · have hmpos : 0 < n / 10 := by omega
      have hmlt : n / 10 < n := by omega
      have hmf : n / 10 ≤ f := by omega
      have hlogpos : 0 < Nat.log 10 n := Nat.log_pos (by norm_num) (by omega)
      have hlog : Nat.log 10 (n / 10) = Nat.log 10 n - 1 := Nat.log_div_base 10 n
      set D := Nat.log 10 n with hDdef
      have hlog' : Nat.log 10 (n / 10) + 1 = D := by omega
      have hpow : 10 ^ (D + 1) = 10 ^ D * 10 := pow_succ 10 D
      have hbound' : accV * 10 ^ (Nat.log 10 (n / 10) + 1) + n / 10 < 2 ^ 64 := by
        rw [hlog']
        have h1 : accV * 10 ^ (D + 1) = accV * 10 ^ D * 10 := by rw [hpow, Nat.mul_assoc]
        have h2 : accV * 10 ^ (D + 1) + n < 2 ^ 64 := hbound
        omega
      rw [IH (n / 10) hmlt f ((n % 10 + 48) :: acc) accV hmpos hmf hbound']
      have hd : contB 48 57 (n % 10 + 48) = true := by
        simp only [contB, Bool.and_eq_true, decide_eq_true_eq]; omega
      rw [parseU64Core, if_pos hd, hlog']
      have h1 : accV * 10 ^ (D + 1) = accV * 10 ^ D * 10 := by rw [hpow, Nat.mul_assoc]
      have hacc2 : (accV * 10 ^ D + n / 10) * 10 + (n % 10 + 48 - 48) =
          accV * 10 ^ (D + 1) + n := by
        rw [h1]; omega
      rw [hacc2, if_pos hbound]

theorem parseU64_decBytes {n : Nat} (h : n < 2 ^ 64) : parseU64 (decBytes n) = some n := by
  by_cases hn : n = 0
  · subst hn; decide
  · have hpos : 0 < n := by omega
    rw [decBytes, if_neg hn]
    have hmem : ∀ b ∈ decBytesF n n [], 48 ≤ b ∧ b ≤ 57 :=
      mem_decBytesF (by intro b hb; cases hb)
    rcases hsh : decBytesF n n [] with _ | ⟨b, r⟩
    · exact absurd hsh (decBytesF_ne_nil hpos le_rfl)
    · have hb : 48 ≤ b ∧ b ≤ 57 := hmem b (hsh ▸ List.mem_cons_self b r)
      simp only [parseU64]
      rw [if_neg (by omega : ¬b = 43), ← hsh]
      have := parseU64Core_decBytesF n n [] 0 hpos le_rfl
        (by rw [Nat.zero_mul, Nat.zero_add]; exact h)
      rw [Nat.zero_mul, Nat.zero_add] at this
      exact this

theorem isValidUtf8F_ascii : ∀ (fuel : Nat) (l : List Nat), l.length ≤ fuel →
    (∀ b ∈ l, b ≤ 127) → isValidUtf8F fuel l = true := by
  intro fuel
  induction fuel with
  | zero =>
    intro l hlen _
    have : l = [] := List.eq_nil_of_length_eq_zero (by omega)
    subst this
    rfl
  | succ f ih =>
    intro l hlen hl
    cases l with
    | nil => rfl
    | cons b rest =>
      have hb : b ≤ 127 := hl b (List.mem_cons_self b rest)
      have hlen127 : utf8Len b = some (0, 0, 0) := by rw [utf8Len, if_pos hb]
      rw [isValidUtf8F, hlen127]
      exact ih rest (by simp at hlen; omega) (fun x hx => hl x (List.mem_cons_of_mem b hx))

theorem isValidUtf8_ascii (l : List Nat) (hl : ∀ b ∈ l, b ≤ 127) :
    isValidUtf8 l = true :=
  isValidUtf8F_ascii l.length l le_rfl hl

theorem isValidUtf8_decBytes (n : Nat) : isValidUtf8 (decBytes n) = true := by
  refine isValidUtf8_ascii _ ?_
  intro b hb
  rw [decBytes] at hb
  by_cases hn : n = 0
  · rw [if_pos hn] at hb
    simp only [List.mem_singleton] at hb
    omega
  · rw [if_neg hn] at hb
    have := mem_decBytesF (by intro x hx; cases hx) b hb
    omega

/-! ## Hash-chain lemmas -/

theorem insertSorted_append (l : List (Nat × String)) (n : Nat) (v : String)
    (h : ∀ k ∈ l.map Prod.fst, k < n) : insertSorted n v l = l ++ [(n, v)] := by
  induction l with
  | nil => rfl
  | cons q r ih =>
    rcases q with ⟨k, w⟩
    have hk : k < n := h k (by simp)
    rw [insertSorted, if_neg (by omega), if_neg (by omega), List.cons_append,
      ih (fun x hx => h x (List.mem_cons_of_mem _ hx))]

theorem add_hash_keys (c : HashChain) (n : Nat) (v : String)
    (h : ∀ k ∈ c.chain.map Prod.fst, k < n) :
    (c.add_hash n v).chain.map Prod.fst = c.chain.map Prod.fst ++ [n] := by
  simp [HashChain.add_hash, insertSorted_append _ _ _ h]

theorem latest_add_hash (c : HashChain) (n : Nat) (v : String)
    (h : ∀ k ∈ c.chain.map Prod.fst, k < n) :
    (c.add_hash n v).get_latest_hash = v := by
  unfold HashChain.add_hash HashChain.get_latest_hash
  rw [insertSorted_append _ _ _ h]
  rw [List.getLast?_concat]

theorem sorted_getLast_max : ∀ (l : List (Nat × String)),
    strictAscB (l.map Prod.fst) = true →
    ∀ p, l.getLast? = some p →
      (∀ k ∈ l.map Prod.fst, k ≤ p.1) ∧ lookupKey p.1 l = some p.2 := by
  intro l
  induction l with
  | nil => intro _ p hp; cases hp
  | cons q r ih =>
    intro hs p hp
    cases r with
    | nil =>
      have hpq : q = p := by
        simpa using hp
      subst hpq
      refine ⟨by simp, ?_⟩
      rw [lookupKey, if_pos rfl]
    | cons q2 r2 =>
      have hs' : q.1 < q2.1 ∧ strictAscB ((q2 :: r2).map Prod.fst) = true := by
        simp only [List.map_cons, strictAscB, Bool.and_eq_true, decide_eq_true_eq] at hs
        exact ⟨hs.1, hs.2⟩
      rw [List.getLast?_cons_cons] at hp
      obtain ⟨hmax, hlook⟩ := ih hs'.2 p hp
      have hq2 : q2.1 ≤ p.1 := hmax q2.1 (by simp)
      refine ⟨?_, ?_⟩
      · intro k hk
        rcases List.mem_cons.mp hk with rfl | hk
        · omega
        · exact hmax k hk
      · rw [lookupKey, if_neg (by omega)]
        exact hlook

/-! ## Gap-check lemmas -/

theorem consecutive_range' : ∀ (n m : Nat), consecutive (List.range' m n) = true := by
  intro n
  induction n with
  | zero => intro m; rfl
  | succ k ih =>
    intro m
    rw [List.range'_succ]
    cases k with
    | zero => rfl
    | succ k2 =>
      rw [List.range'_succ]
      simp only [consecutive, Bool.and_eq_true, decide_eq_true_eq]
      refine ⟨by trivial, ?_⟩
      have := ih (m + 1)
      rwa [List.range'_succ] at this

theorem consecutive_eq_range' : ∀ l : List Nat, consecutive l = true →
    ∃ m, l = List.range' m l.length := by
  intro l
  induction l with
  | nil => intro _; exact ⟨0, rfl⟩
  | cons a r ih =>
    intro h
    cases r with
    | nil => exact ⟨a, by simp⟩
    | cons b r2 =>
      have h' : b = a + 1 ∧ consecutive (b :: r2) = true := by
        simp only [consecutive, Bool.and_eq_true, decide_eq_true_eq] at h
        exact ⟨h.1, h.2⟩
      obtain ⟨m, hm⟩ := ih h'.2
      rw [List.length_cons, List.range'_succ] at hm
      have hb : b = m := by
        have := congrArg (fun t => t.head?) hm
        simpa using this
      refine ⟨a, ?_⟩
      rw [List.length_cons, List.length_cons, List.range'_succ, List.range'_succ]
      have h1 : a + 1 = m := by omega
      rw [h1]
      exact congrArg (a :: ·) hm

theorem insertOrd_length (a : Nat) (l : List Nat) :
    (insertOrd a l).length = l.length + 1 := by
  induction l with
  | nil => rfl
  | cons b r ih =>
    rw [insertOrd]
    by_cases h : a ≤ b
    · rw [if_pos h]; rfl
    · rw [if_neg h, List.length_cons, ih, List.length_cons]

theorem sortAsc_length (l : List Nat) : (sortAsc l).length = l.length := by
  induction l with
  | nil => rfl
  | cons a r ih =>
    rw [sortAsc, insertOrd_length, ih, List.length_cons]

/-! ## Claims C1, C5, C6 -/

/-- C1 (amended): `assign_sequence_number` reads the counter key, defaults to
0 when the key is absent or when its value is valid UTF-8 that fails to parse
as a `u64`, writes counter+1 back (as `u64` arithmetic), and returns
counter+1 — on a fresh counter the first allocation returns 1; but a stored
value that is not valid UTF-8 surfaces an error (the `?` on
`String::from_utf8`) instead of being defaulted. -/
theorem assign_sequence_number_amended (st : EtcdState) :
    (st.counter = none →
      assign_sequence_number st = (.ok 1, { st with counter := some (decBytes 1) })) ∧
    (∀ bs, st.counter = some bs → isValidUtf8 bs = true →
      assign_sequence_number st =
        (.ok (((parseU64 bs).getD 0 + 1) % 2 ^ 64),
         { st with counter := some (decBytes (((parseU64 bs).getD 0 + 1) % 2 ^ 64)) })) ∧
    (∀ bs, st.counter = some bs → isValidUtf8 bs = false →
      assign_sequence_number st = (.error .utf8Error, st)) := by
  refine ⟨?_, ?_, ?_⟩
  · intro h
    simp [assign_sequence_number, readNextSequence, h]
  · intro bs h hv
    simp [assign_sequence_number, readNextSequence, h, hv]
  · intro bs h hv
    simp [assign_sequence_number, readNextSequence, h, hv]

/-- C1 witness: on the fresh (absent) counter the first allocation returns 1
and writes `"1"` back. -/
theorem assign_sequence_number_amended_witness :
    assign_sequence_number emptyStore = (.ok 1, { emptyStore with counter := some (decBytes 1) }) :=
  (assign_sequence_number_amended emptyStore).1 rfl

/-- C1 counterexample: with the counter key holding the single byte `0xFF`
(not valid UTF-8, hence unparsable), the allocation returns an error rather
than treating the counter as 0 and returning 1 as the claim states. -/
theorem assign_sequence_number_defaulting_cex :
    (assign_sequence_number ⟨some [255], fun _ => none⟩).1 = .error .utf8Error ∧
    (assign_sequence_number ⟨some [255], fun _ => none⟩).1 ≠ .ok 1 := by
  decide

/-- C5: an empty chain's `get_latest_hash` is the genesis hash, the
64-character all-zero hex string; a non-empty chain (with the `BTreeMap`
key-ordering invariant) yields the hash recorded at the highest sequence
number. -/
theorem latest_hash_genesis_and_max :
    (HashChain.new.get_latest_hash = String.mk (List.replicate 64 '0') ∧
     HashChain.new.get_latest_hash.length = 64 ∧
     ∀ c ∈ HashChain.new.get_latest_hash.data, c = '0') ∧
    ∀ hc : HashChain, strictAscB (hc.chain.map Prod.fst) = true → hc.chain ≠ [] →
      ∃ m, (∀ k ∈ hc.chain.map Prod.fst, k ≤ m) ∧
        hc.get_hash m = some hc.get_latest_hash := by
  refine ⟨by decide, ?_⟩
  intro hc hs hne
  rcases hlast : hc.chain.getLast? with _ | p
  · exact absurd (List.getLast?_eq_none_iff.mp hlast) hne
  · obtain ⟨hmax, hlook⟩ := sorted_getLast_max hc.chain hs p hlast
    refine ⟨p.1, hmax, ?_⟩
    rw [HashChain.get_hash, hlook, HashChain.get_latest_hash, hlast]

/-- C5 witness: on the concrete sorted chain `{1 ↦ "a", 2 ↦ "b"}` the latest
hash is the one at the maximal key 2. -/
theorem latest_hash_genesis_and_max_witness :
    ∃ m, (∀ k ∈ (HashChain.mk [(1, "a"), (2, "b")] "g").chain.map Prod.fst, k ≤ m) ∧
      (HashChain.mk [(1, "a"), (2, "b")] "g").get_hash m =
        some (HashChain.mk [(1, "a"), (2, "b")] "g").get_latest_hash :=
  latest_hash_genesis_and_max.2 (HashChain.mk [(1, "a"), (2, "b")] "g")
    (by decide) (by decide)

/-- C6: `verify_integrity` is true exactly when the chain is empty or its
sorted keys form a contiguous run of integers (a `range'`); in particular it
is true for key set `{1,2,3}` and false for `{1,2,3,5}`. -/
theorem verify_integrity_gapless :
    (∀ c : HashChain, c.verify_integrity = true ↔
      ∃ m, sortAsc (c.chain.map Prod.fst) = List.range' m c.chain.length) ∧
    HashChain.verify_integrity ⟨[(1, "a"), (2, "b"), (3, "c")], ""⟩ = true ∧
    HashChain.verify_integrity ⟨[(1, "a"), (2, "b"), (3, "c"), (5, "e")], ""⟩ = false := by
  refine ⟨?_, by decide, by decide⟩
  intro c
  rw [HashChain.verify_integrity]
  by_cases he : c.chain.isEmpty
  · rw [if_pos he]
    have hc : c.chain = [] := List.isEmpty_iff.mp he
    simp [hc, sortAsc]
  · rw [if_neg he]
    constructor
    · intro h
      obtain ⟨m, hm⟩ := consecutive_eq_range' _ h
      rw [sortAsc_length, List.length_map] at hm
      exact ⟨m, hm⟩
    · intro ⟨m, hm⟩
      rw [hm]
      exact consecutive_range' _ _

/-! ## Seal-pipeline inversion lemmas -/

theorem readNextSequence_lt {c : Option (List Nat)} {v : Nat}
    (h : readNextSequence c = .ok v) : v < 2 ^ 64 := by
  cases c with
  | none =>
    simp only [readNextSequence, Except.ok.injEq] at h
    omega
  | some bs =>
    rw [readNextSequence] at h
    by_cases hv : isValidUtf8 bs
    · rw [if_pos hv] at h
      simp only [Except.ok.injEq] at h
      have := Nat.mod_lt ((parseU64 bs).getD 0 + 1) (show (0 : Nat) < 2 ^ 64 by norm_num)
      omega
    · rw [if_neg hv] at h
      cases h

theorem assign_ok_inversion {st : EtcdState} {v : Nat} {st' : EtcdState}
    (h : assign_sequence_number st = (.ok v, st')) :
    readNextSequence st.counter = .ok v ∧
    st' = { st with counter := some (decBytes v) } := by
  rcases hr : readNextSequence st.counter with e | w
  · rw [assign_sequence_number, hr] at h
    simp at h
  · have hval : assign_sequence_number st =
        (.ok w, { st with counter := some (decBytes w) }) := by
      rw [assign_sequence_number, hr]
    rw [hval] at h
    injection h with h1 h2
    injection h1 with h1
    subst h1
    exact ⟨rfl, h2.symm⟩

theorem assign_after_write (st : EtcdState) (v : Nat)
    (h : st.counter = some (decBytes v)) (hv : v + 1 < 2 ^ 64) :
    assign_sequence_number st =
      (.ok (v + 1), { st with counter := some (decBytes (v + 1)) }) := by
  have hr : readNextSequence st.counter = .ok (v + 1) := by
    rw [h, readNextSequence, if_pos (isValidUtf8_decBytes v),
      parseU64_decBytes (by omega : v < 2 ^ 64)]
    simp only [Option.getD_some]
    rw [Nat.mod_eq_of_lt hv]
  rw [assign_sequence_number, hr]

theorem seal_event_ok (ls : LedgerState) (eid : String) (pl : List Nat)
    (sg : String) (tv : Int) (now lat : Int) (seq : Nat) (st1 : EtcdState)
    (hA : assign_sequence_number ls.store = (.ok seq, st1)) :
    seal_event ls eid pl sg tv now lat true =
      (.ok (sealedRec ls eid pl now lat seq),
       { store := { counter := st1.counter,
                    events := fun n => if n = seq then some (sealedRec ls eid pl now 0 seq)
                              else st1.events n },
         chain := ls.chain.add_hash seq
           (compute_event_hash seq eid pl ls.chain.get_latest_hash) }) := by
  unfold seal_event
  rw [hA]
  rfl

theorem seal_event_write_failure (ls : LedgerState) (eid : String) (pl : List Nat)
    (sg : String) (tv : Int) (now lat : Int) (seq : Nat) (st1 : EtcdState)
    (hA : assign_sequence_number ls.store = (.ok seq, st1)) :
    seal_event ls eid pl sg tv now lat false =
      (.error .connectivityError, { store := st1, chain := ls.chain }) := by
  unfold seal_event
  rw [hA]
  rfl

/-! ## Claims C2, C8, C10 -/

/-- C2 (amended): sealing an event and reading its sequence number back
yields the stored record, equal to the returned record in every field except
`commit_latency_ms` — the stored copy holds 0 because the record is
serialized before the latency timer is read, while the returned copy carries
the measured latency; the payload bytes are preserved unchanged. -/
theorem seal_roundtrip_amended (ls : LedgerState) (eid : String) (pl : List Nat)
    (sg : String) (tv now lat : Int) (r : SealedEventData)
    (h : (seal_event ls eid pl sg tv now lat true).1 = .ok r) :
    get_event (seal_event ls eid pl sg tv now lat true).2.store r.sequence_number =
      .ok (some { r with commit_latency_ms := 0 }) ∧
    r.payload = pl := by
  rcases hA : assign_sequence_number ls.store with ⟨res, st1⟩
  cases res with
  | error e =>
    rw [seal_event] at h
    rw [hA] at h
    cases h
  | ok seq =>
    have hS := seal_event_ok ls eid pl sg tv now lat seq st1 hA
    rw [hS] at h ⊢
    simp only [Except.ok.injEq] at h
    subst h
    refine ⟨?_, rfl⟩
    rw [get_event]
    simp [sealedRec]

/-- C2 witness: with measured latency 0 the read-back record coincides with
the returned one (its `commit_latency_ms` is 0 on both sides). -/
theorem seal_roundtrip_amended_witness :
    get_event (seal_event freshLedger "e1" [9, 9] "s" 0 7 0 true).2.store
        (sealedRec freshLedger "e1" [9, 9] 7 0 1).sequence_number =
      .ok (some { sealedRec freshLedger "e1" [9, 9] 7 0 1 with commit_latency_ms := 0 }) ∧
    (sealedRec freshLedger "e1" [9, 9] 7 0 1).payload = [9, 9] :=
  seal_roundtrip_amended freshLedger "e1" [9, 9] "s" 0 7 0
    (sealedRec freshLedger "e1" [9, 9] 7 0 1) rfl

/-- C2 counterexample: with a measured latency of 7 ms the record returned by
`seal_event` differs from the record `get_event` reads back (the stored copy
has `commit_latency_ms = 0`), so the round trip is not equal in all fields. -/
theorem seal_roundtrip_cex :
    (match seal_event freshLedger "e1" [9, 9] "s" 0 100 7 true with
     | (.ok r, ls2) =>
       (match get_event ls2.store r.sequence_number with
        | .ok (some r2) => decide (r2 = r)
        | _ => true)
     | (.error _, _) => true) = false := by
  decide

/-- C8: when sequence assignment succeeds and the durable write goes through,
`seal_event` returns success for every measured latency — exceeding the
50 ms budget changes nothing about the result — and the returned record
carries the measured duration in `commit_latency_ms`; the warning condition
is exactly `latency > 50` and is only logged. -/
theorem seal_latency_nonfatal (ls : LedgerState) (eid : String) (pl : List Nat)
    (sg : String) (tv now lat : Int) (seq : Nat) (st1 : EtcdState)
    (hA : assign_sequence_number ls.store = (.ok seq, st1)) :
    (seal_event ls eid pl sg tv now lat true).1 = .ok (sealedRec ls eid pl now lat seq) ∧
    (sealedRec ls eid pl now lat seq).commit_latency_ms = lat ∧
    (latencyWarning lat = true ↔ lat > 50) := by
  refine ⟨?_, rfl, ?_⟩
  · rw [seal_event_ok ls eid pl sg tv now lat seq st1 hA]
  · simp [latencyWarning]

/-- C8 witness: a seal measured at 1000 ms (far past the 50 ms budget) still
returns success, with `commit_latency_ms = 1000`. -/
theorem seal_latency_nonfatal_witness :
    (seal_event freshLedger "e" [1] "s" 0 5 1000 true).1 =
      .ok (sealedRec freshLedger "e" [1] 5 1000 1) ∧
    (sealedRec freshLedger "e" [1] 5 1000 1).commit_latency_ms = 1000 ∧
    (latencyWarning 1000 = true ↔ (1000 : Int) > 50) :=
  seal_latency_nonfatal freshLedger "e" [1] "s" 0 5 1000 1
    { emptyStore with counter := some (decBytes 1) } rfl

/-- C10: when the durable write fails, `seal_event` returns an error, the
in-memory chain is unchanged and no event record is written, but the shared
counter keeps the incremented value `seq` — `get_current_sequence` now
reports `seq` even though the record keyspace has no entry at `seq`. -/
theorem seal_write_failure_state (ls : LedgerState) (eid : String) (pl : List Nat)
    (sg : String) (tv now lat : Int) (seq : Nat) (st1 : EtcdState)
    (hA : assign_sequence_number ls.store = (.ok seq, st1)) :
    seal_event ls eid pl sg tv now lat false =
      (.error .connectivityError, { store := st1, chain := ls.chain }) ∧
    st1.events = ls.store.events ∧
    st1.counter = some (decBytes seq) ∧
    get_current_sequence st1 = .ok seq := by
  obtain ⟨hr, hst⟩ := assign_ok_inversion hA
  have hseq : seq < 2 ^ 64 := readNextSequence_lt hr
  subst hst
  refine ⟨seal_event_write_failure ls eid pl sg tv now lat seq _ hA, rfl, rfl, ?_⟩
  have hcnt : ({ ls.store with counter := some (decBytes seq) } : EtcdState).counter =
      some (decBytes seq) := rfl
  rw [get_current_sequence, hcnt]
  simp [isValidUtf8_decBytes, parseU64_decBytes hseq]

/-- C10 witness: from a fresh store, a seal whose etcd write fails leaves the
counter at 1 with no record stored under key 1 and the chain untouched. -/
theorem seal_write_failure_state_witness :
    seal_event freshLedger "e" [2] "s" 0 3 4 false =
      (.error .connectivityError,
       { store := { emptyStore with counter := some (decBytes 1) }, chain := freshLedger.chain }) ∧
    ({ emptyStore with counter := some (decBytes 1) } : EtcdState).events =
      freshLedger.store.events ∧
    ({ emptyStore with counter := some (decBytes 1) } : EtcdState).counter =
      some (decBytes 1) ∧
    get_current_sequence { emptyStore with counter := some (decBytes 1) } = .ok 1 :=
  seal_write_failure_state freshLedger "e" [2] "s" 0 3 4 1
    { emptyStore with counter := some (decBytes 1) } rfl

/-! ## Claim C4 -/

/-- C4 (amended): sealing three events sequentially links the chain — the
second record's `previous_hash` is the first's `event_hash` and the third's
is the second's — provided every key already in the chain is below the first
assigned sequence number (as in every state normal operation produces, where
the chain keys never exceed the counter; a chain entry at or above the
incoming sequence numbers would stay the maximal key and break the linkage),
and the sequence numbers stay below the `u64` wrap.  Each seal reads the
chain's latest hash as `previous_hash` before hashing and records its own
`event_hash` afterwards. -/
theorem chain_linkage_amended
    (ls0 : LedgerState) (e1 e2 e3 sg : String) (p1 p2 p3 : List Nat)
    (tv n1 n2 n3 l1 l2 l3 : Int) (r1 r2 r3 : SealedEventData)
    (h1 : (seal_event ls0 e1 p1 sg tv n1 l1 true).1 = .ok r1)
    (h2 : (seal_event (seal_event ls0 e1 p1 sg tv n1 l1 true).2
            e2 p2 sg tv n2 l2 true).1 = .ok r2)
    (h3 : (seal_event (seal_event (seal_event ls0 e1 p1 sg tv n1 l1 true).2
            e2 p2 sg tv n2 l2 true).2 e3 p3 sg tv n3 l3 true).1 = .ok r3)
    (hk : ∀ k ∈ ls0.chain.chain.map Prod.fst, k < r1.sequence_number)
    (hb : r1.sequence_number + 2 < 2 ^ 64) :
    r2.previous_hash = r1.event_hash ∧ r3.previous_hash = r2.event_hash := by
  rcases hA : assign_sequence_number ls0.store with ⟨res, st1⟩
  cases res with
  | error e =>
    rw [seal_event, hA] at h1
    simp at h1
  | ok seq1 =>
    obtain ⟨hr1, hst1⟩ := assign_ok_inversion hA
    subst hst1
    have hS1 := seal_event_ok ls0 e1 p1 sg tv n1 l1 seq1 _ hA
    replace h1 : (Except.ok (sealedRec ls0 e1 p1 n1 l1 seq1) :
        Except LedgerErr SealedEventData) = Except.ok r1 := by
      rw [hS1] at h1; exact h1
    injection h1 with h1
    subst h1
    replace hk : ∀ k ∈ ls0.chain.chain.map Prod.fst, k < seq1 := hk
    replace hb : seq1 + 2 < 2 ^ 64 := hb
    have hJ1cnt : (seal_event ls0 e1 p1 sg tv n1 l1 true).2.store.counter =
        some (decBytes seq1) := by rw [hS1]
    have hJ1chain : (seal_event ls0 e1 p1 sg tv n1 l1 true).2.chain =
        ls0.chain.add_hash seq1
          (compute_event_hash seq1 e1 p1 ls0.chain.get_latest_hash) := by rw [hS1]
    have hA2 := assign_after_write _ seq1 hJ1cnt (by omega)
    have hS2 := seal_event_ok _ e2 p2 sg tv n2 l2 (seq1 + 1) _ hA2
    replace h2 : (Except.ok (sealedRec (seal_event ls0 e1 p1 sg tv n1 l1 true).2
        e2 p2 n2 l2 (seq1 + 1)) : Except LedgerErr SealedEventData) = Except.ok r2 := by
      rw [hS2] at h2; exact h2
    injection h2 with h2
    subst h2
    have hprev2 : (seal_event ls0 e1 p1 sg tv n1 l1 true).2.chain.get_latest_hash =
        compute_event_hash seq1 e1 p1 ls0.chain.get_latest_hash := by
      rw [hJ1chain]
      exact latest_add_hash _ _ _ hk
    constructor
    · show (seal_event ls0 e1 p1 sg tv n1 l1 true).2.chain.get_latest_hash =
        (sealedRec ls0 e1 p1 n1 l1 seq1).event_hash
      rw [hprev2]
      rfl
    · have hJ2cnt : (seal_event (seal_event ls0 e1 p1 sg tv n1 l1 true).2
          e2 p2 sg tv n2 l2 true).2.store.counter = some (decBytes (seq1 + 1)) := by
        rw [hS2]
      have hJ2chain : (seal_event (seal_event ls0 e1 p1 sg tv n1 l1 true).2
          e2 p2 sg tv n2 l2 true).2.chain =
          (seal_event ls0 e1 p1 sg tv n1 l1 true).2.chain.add_hash (seq1 + 1)
            (compute_event_hash (seq1 + 1) e2 p2
              (seal_event ls0 e1 p1 sg tv n1 l1 true).2.chain.get_latest_hash) := by
        rw [hS2]
      have hA3 := assign_after_write _ (seq1 + 1) hJ2cnt (by omega)
      have hS3 := seal_event_ok _ e3 p3 sg tv n3 l3 (seq1 + 1 + 1) _ hA3
      replace h3 : (Except.ok (sealedRec (seal_event (seal_event ls0 e1 p1 sg tv n1 l1 true).2
          e2 p2 sg tv n2 l2 true).2 e3 p3 n3 l3 (seq1 + 1 + 1)) :
          Except LedgerErr SealedEventData) = Except.ok r3 := by
        rw [hS3] at h3; exact h3
      injection h3 with h3
      subst h3
      have hkeys1 : ∀ k ∈ (seal_event ls0 e1 p1 sg tv n1 l1 true).2.chain.chain.map Prod.fst,
          k < seq1 + 1 := by
        rw [hJ1chain, add_hash_keys _ _ _ hk]
        intro k hkm
        rcases List.mem_append.mp hkm with hkm | hkm
        · have := hk k hkm; omega
        · simp only [List.mem_singleton] at hkm; omega
      show (seal_event (seal_event ls0 e1 p1 sg tv n1 l1 true).2
          e2 p2 sg tv n2 l2 true).2.chain.get_latest_hash =
        (sealedRec (seal_event ls0 e1 p1 sg tv n1 l1 true).2 e2 p2 n2 l2 (seq1 + 1)).event_hash
      rw [hJ2chain, latest_add_hash _ _ _ hkeys1]
      rfl

/-- C4 witness: three seals from a fresh ledger produce records whose
previous hashes link to the preceding event hashes. -/
theorem chain_linkage_amended_witness :
    (sealedRec (seal_event freshLedger "a" [1] "s" 0 5 0 true).2
        "b" [2] 6 0 (1 + 1)).previous_hash =
      (sealedRec freshLedger "a" [1] 5 0 1).event_hash ∧
    (sealedRec (seal_event (seal_event freshLedger "a" [1] "s" 0 5 0 true).2
        "b" [2] "s" 0 6 0 true).2 "c" [3] 7 0 (1 + 1 + 1)).previous_hash =
      (sealedRec (seal_event freshLedger "a" [1] "s" 0 5 0 true).2
        "b" [2] 6 0 (1 + 1)).event_hash :=
  chain_linkage_amended freshLedger "a" "b" "c" "s" [1] [2] [3] 0 5 6 7 0 0 0
    (sealedRec freshLedger "a" [1] 5 0 1)
    (sealedRec (seal_event freshLedger "a" [1] "s" 0 5 0 true).2 "b" [2] 6 0 (1 + 1))
    (sealedRec (seal_event (seal_event freshLedger "a" [1] "s" 0 5 0 true).2
        "b" [2] "s" 0 6 0 true).2 "c" [3] 7 0 (1 + 1 + 1))
    rfl rfl rfl (by simp [freshLedger, HashChain.new]) (by decide)

/-- C4 counterexample: from a chain state already holding key 10 (above the
incoming sequence numbers), two sequential seals do not link — the second
record's `previous_hash` is the stale hash at key 10, not the first record's
`event_hash` — so the claim's "any chain state" fails. -/
theorem chain_linkage_cex :
    ((seal_event staleChainLedger "a" [] "s" 0 0 0 true).1.toOption.bind fun r1 =>
      (seal_event (seal_event staleChainLedger "a" [] "s" 0 0 0 true).2
          "b" [] "s" 0 0 0 true).1.toOption.map fun r2 =>
        decide (r2.previous_hash = r1.event_hash)) = some false := by
  decide

/-! ## Claim C7: interleaved allocations -/

theorem get?_eq_some_split {α : Type _} (l : List α) (i : Nat) (x : α)
    (h : l.get? i = some x) :
    ∃ l1 l2, l = l1 ++ x :: l2 ∧ l1.length = i ∧ ∀ y, l.set i y = l1 ++ y :: l2 := by
  induction l generalizing i with
  | nil => cases h
  | cons a r ih =>
    cases i with
    | zero =>
      injection h with h
      subst h
      exact ⟨[], r, rfl, rfl, fun y => rfl⟩
    | succ j =>
      obtain ⟨l1, l2, hl, hlen, hset⟩ := ih j h
      refine ⟨a :: l1, l2, by rw [List.cons_append, ← hl], by simp [hlen], ?_⟩
      intro y
      rw [List.set_cons_succ, hset y, List.cons_append]

theorem doneResults_replicate_ready (n : Nat) :
    doneResults (List.replicate n TaskPC.ready) = [] := by
  induction n with
  | zero => rfl
  | succ k ih =>
    rw [List.replicate_succ, doneResults, List.filterMap_cons]
    exact ih

theorem doneResults_length_of_all (ts : List TaskPC)
    (h : ∀ pc ∈ ts, pc.isDone = true) : (doneResults ts).length = ts.length := by
  induction ts with
  | nil => rfl
  | cons pc r ih =>
    have hpc := h pc (List.mem_cons_self pc r)
    cases pc with
    | finished v =>
      rw [doneResults, List.filterMap_cons]
      simp only [TaskPC.result, List.length_cons]
      rw [doneResults] at ih
      rw [ih (fun x hx => h x (List.mem_cons_of_mem _ hx))]
    | ready => cases hpc
    | locked => cases hpc
    | got v => cases hpc
    | failed => cases hpc

theorem Inv_fresh (n : Nat) : AllocInv n (freshConc n) := by
  refine ⟨List.length_replicate n _, ?_, ?_, ?_, ?_, ?_⟩
  · rw [List.countP_eq_zero.mpr]
    · omega
    · intro pc hpc
      rw [List.eq_of_mem_replicate hpc]
      simp [TaskPC.holdsLock]
  · intro pc hpc
    rw [List.eq_of_mem_replicate hpc]
    simp
  · rw [show (freshConc n).tasks = List.replicate n TaskPC.ready from rfl,
      doneResults_replicate_ready]
    rfl
  · rw [show (freshConc n).tasks = List.replicate n TaskPC.ready from rfl,
      doneResults_replicate_ready]
    exact List.Perm.refl _
  · intro v hv
    have := List.eq_of_mem_replicate hv
    cases this

theorem countP_holdsLock_split (l1 l2 : List TaskPC) (x : TaskPC) :
    (l1 ++ x :: l2).countP TaskPC.holdsLock =
      l1.countP TaskPC.holdsLock + l2.countP TaskPC.holdsLock +
        (if x.holdsLock = true then 1 else 0) := by
  rw [List.countP_append, List.countP_cons]
  rcases hx : x.holdsLock with _ | _
  all_goals simp
  all_goals try omega

theorem Inv_step {n : Nat} (hn : n < 2 ^ 64) {st : ConcState}
    (h : AllocInv n st) (i : Nat) : AllocInv n (stepTask st i) := by
  obtain ⟨hlen, hcount, hfail, hcnt, hperm, hgot⟩ := h
  rcases hget : st.tasks.get? i with _ | pc
  · rw [stepTask, hget]
    exact ⟨hlen, hcount, hfail, hcnt, hperm, hgot⟩
  · obtain ⟨l1, l2, hl, hl1len, hset⟩ := get?_eq_some_split _ _ _ hget
    have hmeml1 : ∀ x ∈ l1, x ∈ st.tasks := by
      intro x hx; rw [hl]; exact List.mem_append_left _ hx
    have hmeml2 : ∀ x ∈ l2, x ∈ st.tasks := by
      intro x hx; rw [hl]; exact List.mem_append_right _ (List.mem_cons_of_mem _ hx)
    cases pc with
    | failed =>
      rw [stepTask, hget]
      exact ⟨hlen, hcount, hfail, hcnt, hperm, hgot⟩
    | finished v =>
      rw [stepTask, hget]
      exact ⟨hlen, hcount, hfail, hcnt, hperm, hgot⟩
    | ready =>
      rw [stepTask, hget]
      show AllocInv n
        (if lockFree st then { st with tasks := st.tasks.set i TaskPC.locked } else st)
      by_cases hfree : lockFree st = true
      · rw [if_pos hfree]
        have hnog : ∀ x ∈ st.tasks, x.holdsLock = false := by
          intro x hx
          have := List.all_eq_true.mp hfree x hx
          simpa using this
        have hc0 : st.tasks.countP TaskPC.holdsLock = 0 :=
          List.countP_eq_zero.mpr (fun x hx => by simp [hnog x hx])
      -- the done results do not change: ready and locked both map to no result
        have hdr : doneResults (l1 ++ TaskPC.locked :: l2) = doneResults st.tasks := by
          conv_rhs => rw [hl]
          simp [doneResults, List.filterMap_append, List.filterMap_cons, TaskPC.result]
        refine ⟨?_, ?_, ?_, ?_, ?_, ?_⟩
        · show (st.tasks.set i TaskPC.locked).length = n
          rw [List.length_set, hlen]
        · show (st.tasks.set i TaskPC.locked).countP TaskPC.holdsLock ≤ 1
          rw [hl, countP_holdsLock_split,
            if_neg (show ¬TaskPC.ready.holdsLock = true from Bool.false_ne_true)] at hc0
          rw [hset, countP_holdsLock_split,
            if_pos (show TaskPC.locked.holdsLock = true from rfl)]
          omega
        · show ∀ x ∈ st.tasks.set i TaskPC.locked, x ≠ TaskPC.failed
          intro x hx
          rw [hset] at hx
          rcases List.mem_append.mp hx with hx | hx
          · exact hfail x (hmeml1 x hx)
          · rcases List.mem_cons.mp hx with rfl | hx
            · simp
            · exact hfail x (hmeml2 x hx)
        · show st.counter = _
          rw [hset, hdr]
          exact hcnt
        · show (doneResults (st.tasks.set i TaskPC.locked)).Perm _
          rw [hset, hdr]
          exact hperm
        · intro v hv
          rw [hset] at hv ⊢
          rw [hdr]
          rcases List.mem_append.mp hv with hv | hv
          · exact hgot v (hmeml1 _ hv)
          · rcases List.mem_cons.mp hv with heq | hv
            · cases heq
            · exact hgot v (hmeml2 _ hv)
      · rw [if_neg hfree]
        exact ⟨hlen, hcount, hfail, hcnt, hperm, hgot⟩
    | locked =>
      rw [stepTask, hget]
      have hdro : doneResults st.tasks = doneResults l1 ++ doneResults l2 := by
        rw [hl]
        simp [doneResults, List.filterMap_append, List.filterMap_cons, TaskPC.result]
      have hlen' : l1.length + 1 + l2.length = n := by
        rw [← hlen, hl]
        simp only [List.length_append, List.length_cons]
        omega
      have hdle : (doneResults st.tasks).length + 1 ≤ n := by
        rw [hdro, List.length_append]
        have h1 := List.length_filterMap_le TaskPC.result l1
        have h2 := List.length_filterMap_le TaskPC.result l2
        rw [show l1.filterMap TaskPC.result = doneResults l1 from rfl] at h1
        rw [show l2.filterMap TaskPC.result = doneResults l2 from rfl] at h2
        omega
      have hr : readNextSequence st.counter =
          .ok ((doneResults st.tasks).length + 1) := by
        rw [hcnt]
        by_cases hd : (doneResults st.tasks).length = 0
        · rw [if_pos hd, hd]
          rfl
        · rw [if_neg hd, readNextSequence,
            if_pos (isValidUtf8_decBytes (doneResults st.tasks).length),
            parseU64_decBytes (show (doneResults st.tasks).length < 2 ^ 64 by omega)]
          simp only [Option.getD_some]
          rw [Nat.mod_eq_of_lt (by omega)]
      rw [hr]
      show AllocInv n
        { st with tasks := st.tasks.set i (TaskPC.got ((doneResults st.tasks).length + 1)) }
      have hdr : doneResults (l1 ++ TaskPC.got ((doneResults st.tasks).length + 1) :: l2) =
          doneResults st.tasks := by
        conv_rhs => rw [hl]
        simp [doneResults, List.filterMap_append, List.filterMap_cons, TaskPC.result]
      have hsides : l1.countP TaskPC.holdsLock = 0 ∧ l2.countP TaskPC.holdsLock = 0 := by
        rw [hl, countP_holdsLock_split,
          if_pos (show TaskPC.locked.holdsLock = true from rfl)] at hcount
        exact ⟨by omega, by omega⟩
      refine ⟨?_, ?_, ?_, ?_, ?_, ?_⟩
      · show (st.tasks.set i _).length = n
        rw [List.length_set, hlen]
      · show (st.tasks.set i _).countP TaskPC.holdsLock ≤ 1
        rw [hset, countP_holdsLock_split,
          if_pos (show (TaskPC.got ((doneResults st.tasks).length + 1)).holdsLock = true from rfl)]
        omega
      · show ∀ x ∈ st.tasks.set i _, x ≠ TaskPC.failed
        intro x hx
        rw [hset] at hx
        rcases List.mem_append.mp hx with hx | hx
        · exact hfail x (hmeml1 x hx)
        · rcases List.mem_cons.mp hx with rfl | hx
          · simp
          · exact hfail x (hmeml2 x hx)
      · show st.counter = _
        rw [hset, hdr]
        exact hcnt
      · show (doneResults (st.tasks.set i _)).Perm _
        rw [hset, hdr]
        exact hperm
      · intro v hv
        rw [hset] at hv
        rw [hset, hdr]
        rcases List.mem_append.mp hv with hv | hv
        · exfalso
          have : 0 < l1.countP TaskPC.holdsLock :=
            List.countP_pos_iff.mpr ⟨TaskPC.got v, hv, rfl⟩
          omega
        · rcases List.mem_cons.mp hv with heq | hv
          · injection heq with heq
            try omega
          · exfalso
            have : 0 < l2.countP TaskPC.holdsLock :=
              List.countP_pos_iff.mpr ⟨TaskPC.got v, hv, rfl⟩
            omega
    | got v =>
      rw [stepTask, hget]
      show AllocInv n
        { counter := some (decBytes v), tasks := st.tasks.set i (TaskPC.finished v) }
      have hv := hgot v (by rw [hl]; exact List.mem_append_right _ (List.mem_cons_self _ _))
      have hdro : doneResults st.tasks = doneResults l1 ++ doneResults l2 := by
        rw [hl]
        simp [doneResults, List.filterMap_append, List.filterMap_cons, TaskPC.result]
      have hdrn : doneResults (l1 ++ TaskPC.finished v :: l2) =
          doneResults l1 ++ v :: doneResults l2 := by
        simp [doneResults, List.filterMap_append, List.filterMap_cons, TaskPC.result]
      have hlennew : (doneResults (l1 ++ TaskPC.finished v :: l2)).length =
          (doneResults st.tasks).length + 1 := by
        rw [hdrn, hdro]
        simp only [List.length_append, List.length_cons]
        omega
      have hsides : l1.countP TaskPC.holdsLock = 0 ∧ l2.countP TaskPC.holdsLock = 0 := by
        rw [hl, countP_holdsLock_split,
          if_pos (show (TaskPC.got v).holdsLock = true from rfl)] at hcount
        exact ⟨by omega, by omega⟩
      refine ⟨?_, ?_, ?_, ?_, ?_, ?_⟩
      · show (st.tasks.set i _).length = n
        rw [List.length_set, hlen]
      · show (st.tasks.set i _).countP TaskPC.holdsLock ≤ 1
        rw [hset, countP_holdsLock_split,
          if_neg (show ¬(TaskPC.finished v).holdsLock = true from Bool.false_ne_true)]
        omega
      · show ∀ x ∈ st.tasks.set i _, x ≠ TaskPC.failed
        intro x hx
        rw [hset] at hx
        rcases List.mem_append.mp hx with hx | hx
        · exact hfail x (hmeml1 x hx)
        · rcases List.mem_cons.mp hx with rfl | hx
          · simp
          · exact hfail x (hmeml2 x hx)
      · show some (decBytes v) = _
        rw [hset, hlennew, if_neg (by omega), hv]
      · show (doneResults (st.tasks.set i _)).Perm _
        rw [hset, hlennew, hdrn]
        have hstep1 : (doneResults l1 ++ v :: doneResults l2).Perm
            (v :: doneResults st.tasks) := by
          rw [hdro]
          exact List.perm_middle
        refine hstep1.trans ?_
        refine (hperm.cons v).trans ?_
        rw [hv]
        have hconc : List.range' 1 ((doneResults st.tasks).length + 1) =
            List.range' 1 (doneResults st.tasks).length ++
              [(doneResults st.tasks).length + 1] := by
          rw [List.range'_concat]
          simp [Nat.add_comm]
        rw [hconc]
        exact (List.perm_append_singleton _ _).symm
      · intro w hw
        rw [hset] at hw
        rcases List.mem_append.mp hw with hw | hw
        · exfalso
          have : 0 < l1.countP TaskPC.holdsLock :=
            List.countP_pos_iff.mpr ⟨TaskPC.got w, hw, rfl⟩
          omega
        · rcases List.mem_cons.mp hw with heq | hw
          · cases heq
          · exfalso
            have : 0 < l2.countP TaskPC.holdsLock :=
              List.countP_pos_iff.mpr ⟨TaskPC.got w, hw, rfl⟩
            omega

theorem Inv_run {n : Nat} (hn : n < 2 ^ 64) {st : ConcState}
    (h : AllocInv n st) (sched : List Nat) : AllocInv n (runSched st sched) := by
  induction sched generalizing st with
  | nil => exact h
  | cons i rest ih =>
    rw [runSched, List.foldl_cons]
    exact ih (Inv_step hn h i)

/-- C7: for every task count `n` (below the `u64` wrap) and every interleaving
of the allocation steps, if all `n` concurrent `assign_sequence_number` calls
against a fresh counter run to completion, the sequence numbers they obtained
are exactly a permutation of the contiguous range `1..n` — the client mutex
is held across the counter get and put, so in-process concurrent allocations
serialize. -/
theorem concurrent_allocations_contiguous (n : Nat) (sched : List Nat)
    (hn : n < 2 ^ 64)
    (hdone : allDone (runSched (freshConc n) sched) = true) :
    (resultsOf (runSched (freshConc n) sched)).Perm (List.range' 1 n) := by
  obtain ⟨hlen, _, _, _, hperm, _⟩ := Inv_run hn (Inv_fresh n) sched
  have hall : ∀ pc ∈ (runSched (freshConc n) sched).tasks, pc.isDone = true :=
    List.all_eq_true.mp hdone
  have hdr := doneResults_length_of_all _ hall
  rw [hdr, hlen] at hperm
  exact hperm

/-- C7 witness: two tasks, interleaved schedule (task 1's steps while task 0
holds the mutex are no-ops); both complete and obtain exactly `[1, 2]`. -/
theorem concurrent_allocations_contiguous_witness :
    (2 : Nat) < 2 ^ 64 ∧
    allDone (runSched (freshConc 2) [0, 1, 0, 1, 0, 1, 0, 1, 1]) = true ∧
    (resultsOf (runSched (freshConc 2) [0, 1, 0, 1, 0, 1, 0, 1, 1])).Perm
      (List.range' 1 2) :=
  ⟨by norm_num, by decide,
   concurrent_allocations_contiguous 2 [0, 1, 0, 1, 0, 1, 0, 1, 1] (by norm_num) (by decide)⟩

/-- C3 witness: the hash of the spec's example input `(5, "e1", [9, 9], "abc")`
matches the spec formula and is a 64-character lowercase hex string. -/
theorem compute_event_hash_follows_spec_witness :
    compute_event_hash 5 "e1" [9, 9] "abc" =
      hexEncode (sha256 (specDigestInput 5 "e1" [9, 9] "abc")) ∧
    (compute_event_hash 5 "e1" [9, 9] "abc").length = 64 ∧
    (∀ c ∈ (compute_event_hash 5 "e1" [9, 9] "abc").data, isLowerHexDigit c) ∧
    compute_event_hash 5 "e1" [9, 9] "abc" = compute_event_hash 5 "e1" [9, 9] "abc" :=
  compute_event_hash_follows_spec 5 "e1" [9, 9] "abc"

/-- C6 witness: instantiating the gaplessness characterization at the chain
with key set `{1,2,3}`. -/
theorem verify_integrity_gapless_witness :
    HashChain.verify_integrity ⟨[(1, "a"), (2, "b"), (3, "c")], ""⟩ = true ↔
      ∃ m, sortAsc ((⟨[(1, "a"), (2, "b"), (3, "c")], ""⟩ : HashChain).chain.map Prod.fst) =
        List.range' m (⟨[(1, "a"), (2, "b"), (3, "c")], ""⟩ : HashChain).chain.length :=
  verify_integrity_gapless.1 ⟨[(1, "a"), (2, "b"), (3, "c")], ""⟩
